import Mathlib

/-!
# Verification of the accounting-blue double-entry ledger core

Shallow embedding of the Rust sources (`src/types.rs`,
`src/utils/memory_storage.rs`, `src/ledger/transaction.rs`,
`src/ledger/core.rs`) and proofs of the specification's claims.

Modelling conventions:
* `BigDecimal` is modelled by `ℤ` (amounts in minor units): the ledger core
  only uses exact `+`, `-`, `abs`, `=` and `≤` on monetary values — the
  structure of an ordered abelian group — and the additive order embedding
  of fixed-scale decimals into `ℤ` preserves all of these, so nothing
  proved or refuted here depends on the decimal scale.
* `NaiveDate` / `NaiveDateTime` are modelled by `Int` (only ordering and
  equality are used); calls to `Utc::now()` are modelled by an explicit
  `now : Int` argument threaded into the operations that stamp timestamps.
* `HashMap<String, _>` is modelled by an association list together with the
  well-formedness facts (no duplicate keys, key equals the stored id) that a
  `HashMap` keyed by id guarantees; iteration order of `values()` is
  unspecified in Rust and no claim depends on it.
* `&mut self` methods returning `LedgerResult<()>` are modelled as functions
  `... → MemoryStorage → Except LedgerError Unit × MemoryStorage`, returning
  the storage state reached when the call returns (unchanged on the
  fail-fast error paths, exactly as in the source).
* The `TransactionManager` is embedded with its default validator
  (`DefaultTransactionValidator`: `validate_transaction` delegates to
  `Transaction::validate`, `validate_account_references` always succeeds),
  which is the validator `TransactionManager::new` installs.
-/

namespace AccountingBlue

/-- `AccountType` from `src/types.rs`. -/
inductive AccountType where
  | Asset
  | Liability
  | Equity
  | Income
  | Expense
deriving DecidableEq, Repr

/-- `EntryType` from `src/types.rs`. -/
inductive EntryType where
  | Debit
  | Credit
deriving DecidableEq, Repr

/-- `AccountType::normal_balance` from `src/types.rs`. -/
def AccountType.normal_balance : AccountType → EntryType
  | .Asset | .Expense => .Debit
  | .Liability | .Equity | .Income => .Credit

/-- `Account` from `src/types.rs` (`balance : BigDecimal` as `ℤ`,
timestamps as `Int`, metadata `HashMap` as an association list). -/
structure Account where
  id : String
  name : String
  accountType : AccountType
  parentId : Option String
  balance : ℤ
  metadata : List (String × String)
  createdAt : Int
  updatedAt : Int
deriving DecidableEq, Repr

/-- `Account::apply_entry` from `src/types.rs`; `now` models the
`chrono::Utc::now()` timestamp it writes into `updated_at`. -/
def Account.apply_entry (a : Account) (entryType : EntryType) (amount : ℤ)
    (now : Int) : Account :=
  match a.accountType.normal_balance, entryType with
  | .Debit, .Debit | .Credit, .Credit =>
      { a with balance := a.balance + amount, updatedAt := now }
  | .Debit, .Credit | .Credit, .Debit =>
      { a with balance := a.balance - amount, updatedAt := now }

/-- `Entry` from `src/types.rs`. -/
structure Entry where
  accountId : String
  entryType : EntryType
  amount : ℤ
  description : Option String
deriving DecidableEq, Repr

/-- `Transaction` from `src/types.rs` (`date : NaiveDate` as `Int`). -/
structure Transaction where
  id : String
  date : Int
  entries : List Entry
  description : String
  reference : Option String
  metadata : List (String × String)
  createdAt : Int
  updatedAt : Int
deriving DecidableEq, Repr

/-- `LedgerError` from `src/types.rs`. -/
inductive LedgerError where
  | Storage (msg : String)
  | InvalidTransaction (msg : String)
  | AccountNotFound (id : String)
  | TransactionNotFound (id : String)
  | Validation (msg : String)
deriving DecidableEq, Repr

/-- `Transaction::total_debits` from `src/types.rs`. -/
def Transaction.total_debits (t : Transaction) : ℤ :=
  ((t.entries.filter (fun e => decide (e.entryType = .Debit))).map
    (fun e => e.amount)).sum

/-- `Transaction::total_credits` from `src/types.rs`. -/
def Transaction.total_credits (t : Transaction) : ℤ :=
  ((t.entries.filter (fun e => decide (e.entryType = .Credit))).map
    (fun e => e.amount)).sum

/-- `Transaction::is_balanced` from `src/types.rs`. -/
def Transaction.is_balanced (t : Transaction) : Bool :=
  decide (t.total_debits = t.total_credits)

/-- `Transaction::validate` from `src/types.rs`. -/
def Transaction.validate (t : Transaction) : Except LedgerError Unit :=
  if t.entries.isEmpty then
    .error (.InvalidTransaction "Transaction must have at least one entry")
  else if t.entries.length < 2 then
    .error (.InvalidTransaction
      "Transaction must have at least two entries for double-entry bookkeeping")
  else if !t.is_balanced then
    .error (.InvalidTransaction "Transaction is not balanced")
  else
    match t.entries.find? (fun e => decide (e.amount ≤ 0)) with
    | some _ => .error (.InvalidTransaction "Entry amounts must be positive")
    | none => .ok ()

/-- `AccountBalance` from `src/types.rs`. -/
structure AccountBalance where
  account : Account
  debit_balance : Option ℤ
  credit_balance : Option ℤ
deriving DecidableEq, Repr

/-- `AccountBalance::balance_amount` from `src/types.rs`
(`debit.clone().or_else(credit).unwrap_or(0)`). -/
def AccountBalance.balance_amount (ab : AccountBalance) : ℤ :=
  match ab.debit_balance with
  | some b => b
  | none =>
    match ab.credit_balance with
    | some b => b
    | none => 0

/-- `TrialBalance` from `src/types.rs` (the `balances` `HashMap` keyed by
account id as an association list). -/
structure TrialBalance where
  as_of_date : Int
  balances : List (String × AccountBalance)
  total_debits : ℤ
  total_credits : ℤ
  is_balanced : Bool
deriving DecidableEq, Repr

/-- `IncomeStatement` from `src/traits.rs`. -/
structure IncomeStatement where
  start_date : Int
  end_date : Int
  revenue : List AccountBalance
  expenses : List AccountBalance
  total_revenue : ℤ
  total_expenses : ℤ
  net_income : ℤ
deriving DecidableEq, Repr

/-! ## Association-list model of `HashMap<String, V>` -/

/-- Lookup in the association-list model of a `HashMap` (`map.get(k)`). -/
def getA {α : Type} (m : List (String × α)) (k : String) : Option α :=
  match m with
  | [] => none
  | p :: rest => if p.1 = k then some p.2 else getA rest k

/-- Removal of a key (`map.remove(k)`); removes every binding of `k`,
which coincides with `HashMap` removal on duplicate-free lists. -/
def eraseA {α : Type} (m : List (String × α)) (k : String) :
    List (String × α) :=
  match m with
  | [] => []
  | p :: rest => if p.1 = k then eraseA rest k else p :: eraseA rest k

/-- Insertion (`map.insert(k, v)`): the new binding replaces any old one. -/
def upsertA {α : Type} (m : List (String × α)) (k : String) (v : α) :
    List (String × α) :=
  (k, v) :: eraseA m k

/-- The keys of the association list. -/
def keysA {α : Type} (m : List (String × α)) : List String :=
  m.map (fun p => p.1)

/-! ## `MemoryStorage` (`src/utils/memory_storage.rs`) -/

/-- `MemoryStorage`: the two `HashMap`s behind the `RwLock`s. -/
structure MemoryStorage where
  accounts : List (String × Account)
  transactions : List (String × Transaction)
deriving DecidableEq, Repr

namespace MemoryStorage

/-- `MemoryStorage::save_account`. -/
def save_account (s : MemoryStorage) (a : Account) : MemoryStorage :=
  { s with accounts := upsertA s.accounts a.id a }

/-- `MemoryStorage::get_account` (the `Ok` payload). -/
def get_account (s : MemoryStorage) (account_id : String) : Option Account :=
  getA s.accounts account_id

/-- `MemoryStorage::list_accounts` (the `Ok` payload). -/
def list_accounts (s : MemoryStorage) (account_type : Option AccountType) :
    List Account :=
  (s.accounts.map (fun p => p.2)).filter (fun a =>
    match account_type with
    | none => true
    | some t => decide (a.accountType = t))

/-- `MemoryStorage::update_account`. -/
def update_account (s : MemoryStorage) (a : Account) :
    Except LedgerError MemoryStorage :=
  if (getA s.accounts a.id).isSome then
    .ok { s with accounts := upsertA s.accounts a.id a }
  else
    .error (.AccountNotFound a.id)

/-- `MemoryStorage::save_transaction`. -/
def save_transaction (s : MemoryStorage) (t : Transaction) : MemoryStorage :=
  { s with transactions := upsertA s.transactions t.id t }

/-- `MemoryStorage::get_transaction` (the `Ok` payload). -/
def get_transaction (s : MemoryStorage) (transaction_id : String) :
    Option Transaction :=
  getA s.transactions transaction_id

/-- The filter predicate inside `MemoryStorage::get_account_transactions`:
the transaction must reference the account and fall inside the (optional)
date range. -/
def txnMatches (account_id : String) (start_date end_date : Option Int)
    (t : Transaction) : Bool :=
  if !(t.entries.any (fun e => decide (e.accountId = account_id))) then
    false
  else if (match start_date with
           | some start => decide (t.date < start)
           | none => false) then
    false
  else if (match end_date with
           | some endd => decide (endd < t.date)
           | none => false) then
    false
  else
    true

/-- `MemoryStorage::get_account_transactions` (the `Ok` payload). -/
def get_account_transactions (s : MemoryStorage) (account_id : String)
    (start_date end_date : Option Int) : List Transaction :=
  (s.transactions.map (fun p => p.2)).filter
    (txnMatches account_id start_date end_date)

/-- `MemoryStorage::get_transactions` (the `Ok` payload). -/
def get_transactions (s : MemoryStorage) (start_date end_date : Option Int) :
    List Transaction :=
  (s.transactions.map (fun p => p.2)).filter (fun t =>
    if (match start_date with
        | some start => decide (t.date < start)
        | none => false) then
      false
    else if (match end_date with
             | some endd => decide (endd < t.date)
             | none => false) then
      false
    else
      true)

/-- `MemoryStorage::update_transaction`. -/
def update_transaction (s : MemoryStorage) (t : Transaction) :
    Except LedgerError MemoryStorage :=
  if (getA s.transactions t.id).isSome then
    .ok { s with transactions := upsertA s.transactions t.id t }
  else
    .error (.TransactionNotFound t.id)

/-- `MemoryStorage::delete_transaction`. -/
def delete_transaction (s : MemoryStorage) (transaction_id : String) :
    Except LedgerError MemoryStorage :=
  if (getA s.transactions transaction_id).isSome then
    .ok { s with transactions := eraseA s.transactions transaction_id }
  else
    .error (.TransactionNotFound transaction_id)

/-- `MemoryStorage::get_account_balance`: live balance when `as_of_date` is
`None`, date-bounded replay otherwise. -/
def get_account_balance (s : MemoryStorage) (account_id : String)
    (as_of_date : Option Int) : Except LedgerError ℤ :=
  match s.get_account account_id with
  | none => .error (.AccountNotFound account_id)
  | some account =>
    match as_of_date with
    | none => .ok account.balance
    | some _ =>
      let txns := s.get_account_transactions account_id none as_of_date
      .ok (txns.foldl (fun balance t =>
        t.entries.foldl (fun balance e =>
          if e.accountId = account_id then
            match account.accountType.normal_balance, e.entryType with
            | .Debit, .Debit | .Credit, .Credit => balance + e.amount
            | .Debit, .Credit | .Credit, .Debit => balance - e.amount
          else balance) balance) 0)

/-- The per-account body of the loop in `MemoryStorage::get_trial_balance`:
classify the replayed balance onto the debit or credit side and accumulate
the two totals. -/
def trialLoop (s : MemoryStorage) (as_of_date : Int) :
    List Account → List (String × AccountBalance) → ℤ → ℤ →
    Except LedgerError (List (String × AccountBalance) × ℤ × ℤ)
  | [], balances, total_debits, total_credits =>
      .ok (balances, total_debits, total_credits)
  | account :: rest, balances, total_debits, total_credits =>
    match s.get_account_balance account.id (some as_of_date) with
    | .error e => .error e
    | .ok balance =>
      match account.accountType.normal_balance with
      | .Debit =>
        if 0 ≤ balance then
          trialLoop s as_of_date rest
            (upsertA balances account.id
              ⟨account, some balance, none⟩)
            (total_debits + balance) total_credits
        else
          trialLoop s as_of_date rest
            (upsertA balances account.id
              ⟨account, none, some (abs balance)⟩)
            total_debits (total_credits + abs balance)
      | .Credit =>
        if 0 ≤ balance then
          trialLoop s as_of_date rest
            (upsertA balances account.id
              ⟨account, none, some balance⟩)
            total_debits (total_credits + balance)
        else
          trialLoop s as_of_date rest
            (upsertA balances account.id
              ⟨account, some (abs balance), none⟩)
            (total_debits + abs balance) total_credits

/-- `MemoryStorage::get_trial_balance`. -/
def get_trial_balance (s : MemoryStorage) (as_of_date : Int) :
    Except LedgerError TrialBalance :=
  match trialLoop s as_of_date (s.list_accounts none) [] 0 0 with
  | .error e => .error e
  | .ok (balances, total_debits, total_credits) =>
    .ok ⟨as_of_date, balances, total_debits, total_credits,
      decide (total_debits = total_credits)⟩

/-- `MemoryStorage::get_account_balances_by_type`, as the grouping function
the Rust `HashMap<AccountType, Vec<AccountBalance>>` represents (a missing
group reads back as the empty vector via `unwrap_or_default`). -/
def get_account_balances_by_type (s : MemoryStorage) (as_of_date : Int) :
    Except LedgerError (AccountType → List AccountBalance) :=
  match s.get_trial_balance as_of_date with
  | .error e => .error e
  | .ok tb =>
    .ok (fun ty =>
      (tb.balances.map (fun p => p.2)).filter
        (fun ab => decide (ab.account.accountType = ty)))

end MemoryStorage

/-! ## `TransactionManager` (`src/ledger/transaction.rs`), over
`MemoryStorage` with the default validator -/

namespace TransactionManager

/-- The balance-application loop at the end of
`TransactionManager::record_transaction` (and the second loop of
`update_transaction`): for each entry, load the referenced account if it
exists, apply the entry and persist; a storage error aborts the loop. -/
def applyEntries (now : Int) :
    List Entry → MemoryStorage → Except LedgerError Unit × MemoryStorage
  | [], s => (.ok (), s)
  | e :: rest, s =>
    match s.get_account e.accountId with
    | none => applyEntries now rest s
    | some account =>
      match s.update_account (account.apply_entry e.entryType e.amount now) with
      | .ok s1 => applyEntries now rest s1
      | .error err => (.error err, s)

/-- The reversal loops of `TransactionManager::update_transaction` and
`TransactionManager::delete_transaction`: each entry is re-applied with the
opposite entry type. -/
def reverseEntries (now : Int) :
    List Entry → MemoryStorage → Except LedgerError Unit × MemoryStorage
  | [], s => (.ok (), s)
  | e :: rest, s =>
    match s.get_account e.accountId with
    | none => reverseEntries now rest s
    | some account =>
      let reverse_type : EntryType :=
        match e.entryType with
        | .Debit => .Credit
        | .Credit => .Debit
      match s.update_account (account.apply_entry reverse_type e.amount now) with
      | .ok s1 => reverseEntries now rest s1
      | .error err => (.error err, s)

/-- `TransactionManager::record_transaction` (default validator:
`validate_transaction` is `Transaction::validate`,
`validate_account_references` always succeeds). -/
def record_transaction (now : Int) (t : Transaction) (s : MemoryStorage) :
    Except LedgerError Unit × MemoryStorage :=
  match t.validate with
  | .error e => (.error e, s)
  | .ok _ =>
    match t.entries.find? (fun e => (s.get_account e.accountId).isNone) with
    | some e => (.error (.AccountNotFound e.accountId), s)
    | none =>
      let t1 := { t with updatedAt := now }
      let s1 := s.save_transaction t1
      applyEntries now t1.entries s1

/-- `TransactionManager::update_transaction`. -/
def update_transaction (now : Int) (t : Transaction) (s : MemoryStorage) :
    Except LedgerError Unit × MemoryStorage :=
  match s.get_transaction t.id with
  | none => (.error (.TransactionNotFound t.id), s)
  | some old_transaction =>
    match t.validate with
    | .error e => (.error e, s)
    | .ok _ =>
      match reverseEntries now old_transaction.entries s with
      | (.error e, s1) => (.error e, s1)
      | (.ok _, s1) =>
        match applyEntries now t.entries s1 with
        | (.error e, s2) => (.error e, s2)
        | (.ok _, s2) =>
          match s2.update_transaction t with
          | .ok s3 => (.ok (), s3)
          | .error e => (.error e, s2)

/-- `TransactionManager::delete_transaction`. -/
def delete_transaction (now : Int) (transaction_id : String)
    (s : MemoryStorage) : Except LedgerError Unit × MemoryStorage :=
  match s.get_transaction transaction_id with
  | none => (.error (.TransactionNotFound transaction_id), s)
  | some t =>
    match reverseEntries now t.entries s with
    | (.error e, s1) => (.error e, s1)
    | (.ok _, s1) =>
      match s1.delete_transaction transaction_id with
      | .ok s2 => (.ok (), s2)
      | .error e => (.error e, s1)

end TransactionManager

/-! ## `Ledger` report generation (`src/ledger/core.rs`) -/

namespace Ledger

/-- `Ledger::generate_income_statement`: balances are evaluated as of
`end_date` only; `start_date` is echoed into the result. -/
def generate_income_statement (s : MemoryStorage)
    (start_date end_date : Int) : Except LedgerError IncomeStatement :=
  match s.get_account_balances_by_type end_date with
  | .error e => .error e
  | .ok balances =>
    let revenue := balances .Income
    let expenses := balances .Expense
    let total_revenue := (revenue.map (fun ab => ab.balance_amount)).sum
    let total_expenses := (expenses.map (fun ab => ab.balance_amount)).sum
    let net_income := total_revenue - total_expenses
    .ok ⟨start_date, end_date, revenue, expenses, total_revenue,
      total_expenses, net_income⟩

end Ledger

/-! ## Specification-level derived quantities -/

/-- The balance-update rule as a signed amount: `+amount` when the entry
type equals the normal side, `-amount` otherwise. -/
def signed (normal entryType : EntryType) (amount : ℤ) : ℤ :=
  match normal, entryType with
  | .Debit, .Debit | .Credit, .Credit => amount
  | .Debit, .Credit | .Credit, .Debit => -amount

/-- Signed contribution of one entry to an account with the given normal
side. -/
def signedAmount (normal : EntryType) (e : Entry) : ℤ :=
  signed normal e.entryType e.amount

/-- Net signed contribution of an entry list to the account `id` of type
`ty` (the balance-update rule summed over the entries that reference the
account). -/
def entryDelta (ty : AccountType) (id : String) (es : List Entry) : ℤ :=
  ((es.filter (fun e => decide (e.accountId = id))).map
    (signedAmount ty.normal_balance)).sum

/-- Debit-signed contribution of an entry list to account `id`:
`+amount` for debit entries, `-amount` for credit entries. -/
def debitDelta (id : String) (es : List Entry) : ℤ :=
  ((es.filter (fun e => decide (e.accountId = id))).map
    (fun e =>
      match e.entryType with
      | .Debit => e.amount
      | .Credit => -e.amount)).sum

/-- Ground-truth replay over all stored transactions (no date bound). -/
def replayTotal (s : MemoryStorage) (ty : AccountType) (id : String) : ℤ :=
  (s.transactions.map (fun p => entryDelta ty id p.2.entries)).sum

/-- Ground-truth replay over the stored transactions dated `≤ d`. -/
def replayAsOf (s : MemoryStorage) (d : Int) (ty : AccountType)
    (id : String) : ℤ :=
  (((s.transactions.map (fun p => p.2)).filter
      (fun t => decide (t.date ≤ d))).map
    (fun t => entryDelta ty id t.entries)).sum

/-- The debit-signed replayed balance of an account as of `d` (positive on
the account's normal debit side). -/
def debitSignedAsOf (s : MemoryStorage) (d : Int) (a : Account) : ℤ :=
  match a.accountType.normal_balance with
  | .Debit => replayAsOf s d a.accountType a.id
  | .Credit => -(replayAsOf s d a.accountType a.id)

/-- The entry with its type flipped (`Debit` ↔ `Credit`), the reversal
transformation. -/
def flipEntry (e : Entry) : Entry :=
  { e with entryType :=
      match e.entryType with
      | .Debit => .Credit
      | .Credit => .Debit }

/-! ## Storage well-formedness and the live/replay invariant -/

/-- Well-formedness of the account map: duplicate-free keys and each key
equal to the stored account's id (as a `HashMap` keyed by id guarantees). -/
def AccWF (m : List (String × Account)) : Prop :=
  (keysA m).Nodup ∧ ∀ p ∈ m, p.1 = p.2.id

/-- Well-formedness of a `MemoryStorage` state: both maps are keyed by the
stored entity's id, without duplicates. -/
def WF (s : MemoryStorage) : Prop :=
  AccWF s.accounts ∧ (keysA s.transactions).Nodup ∧
    ∀ p ∈ s.transactions, p.1 = p.2.id

/-- Live/replay consistency: every stored account's running balance equals
the full replay of the stored transactions. -/
def Consistent (s : MemoryStorage) : Prop :=
  ∀ p ∈ s.accounts, p.2.balance = replayTotal s p.2.accountType p.2.id

/-- The reachable-state invariant for the ledger operations. -/
def Inv (s : MemoryStorage) : Prop :=
  WF s ∧ Consistent s

/-! ## Operation sequences -/

/-- One call into the `TransactionManager` mutation API. -/
inductive LedgerOp where
  | record (now : Int) (t : Transaction)
  | update (now : Int) (t : Transaction)
  | delete (now : Int) (transaction_id : String)
deriving DecidableEq, Repr

/-- The storage state after one call (whether it succeeded or failed). -/
def applyOp (op : LedgerOp) (s : MemoryStorage) : MemoryStorage :=
  match op with
  | .record now t => (TransactionManager.record_transaction now t s).2
  | .update now t => (TransactionManager.update_transaction now t s).2
  | .delete now tid => (TransactionManager.delete_transaction now tid s).2

/-- The storage state after a sequence of calls. -/
def runOps : List LedgerOp → MemoryStorage → MemoryStorage
  | [], s => s
  | op :: rest, s => runOps rest (applyOp op s)

/-- Every `record` call in the sequence uses a transaction id that is not
already stored at the moment of the call (`HashMap::insert` silently
overwrites on id collision, so this is the id-uniqueness discipline the
data model assumes). -/
def FreshRun : MemoryStorage → List LedgerOp → Prop
  | _, [] => True
  | s, op :: rest =>
    (match op with
     | .record _ t => s.get_transaction t.id = none
     | _ => True) ∧ FreshRun (applyOp op s) rest

instance (m : List (String × Account)) : Decidable (AccWF m) := by
  unfold AccWF; infer_instance

instance (s : MemoryStorage) : Decidable (WF s) := by
  unfold WF; infer_instance

instance (s : MemoryStorage) : Decidable (Consistent s) := by
  unfold Consistent; infer_instance

instance (s : MemoryStorage) : Decidable (Inv s) := by
  unfold Inv; infer_instance

instance freshRunDecidable :
    (ops : List LedgerOp) → (s : MemoryStorage) → Decidable (FreshRun s ops)
  | [], _ => .isTrue trivial
  | op :: rest, s => by
    have hrest : Decidable (FreshRun (applyOp op s) rest) :=
      freshRunDecidable rest (applyOp op s)
    unfold FreshRun
    cases op <;> exact instDecidableAnd

instance exceptDecEq {ε α : Type} [DecidableEq ε] [DecidableEq α] :
    DecidableEq (Except ε α) := fun a b =>
  match a, b with
  | .error e1, .error e2 =>
    if h : e1 = e2 then isTrue (h ▸ rfl)
    else isFalse (fun hc => h (by injection hc))
  | .error _, .ok _ => isFalse (fun hc => Except.noConfusion hc)
  | .ok _, .error _ => isFalse (fun hc => Except.noConfusion hc)
  | .ok x, .ok y =>
    if h : x = y then isTrue (h ▸ rfl)
    else isFalse (fun hc => h (by injection hc))

/-- Recognizer for an `AccountNotFound` outcome of a manager call. -/
def resultIsAccountNotFound
    (r : Except LedgerError Unit × MemoryStorage) : Bool :=
  match r.1 with
  | .error (.AccountNotFound _) => true
  | _ => false

/-! ## Concrete fixtures for witnesses and counterexamples -/

/-- A cash account (Asset, zero balance). -/
def exCash : Account :=
  { id := "cash", name := "Cash", accountType := .Asset, parentId := none,
    balance := 0, metadata := [], createdAt := 0, updatedAt := 0 }

/-- An owner-equity account (Equity, zero balance). -/
def exEquity : Account :=
  { id := "equity", name := "Equity", accountType := .Equity,
    parentId := none, balance := 0, metadata := [], createdAt := 0,
    updatedAt := 0 }

/-- Storage holding the two fixture accounts and no transactions. -/
def exState : MemoryStorage :=
  { accounts := [("cash", exCash), ("equity", exEquity)],
    transactions := [] }

/-- A balanced two-entry transaction: debit cash 5, credit equity 5. -/
def exTxn : Transaction :=
  { id := "t1", date := 0,
    entries :=
      [{ accountId := "cash", entryType := .Debit, amount := 5,
         description := none },
       { accountId := "equity", entryType := .Credit, amount := 5,
         description := none }],
    description := "owner investment", reference := none, metadata := [],
    createdAt := 0, updatedAt := 0 }

/-- The fixture state after recording `exTxn` at time 0. -/
def exState1 : MemoryStorage :=
  (TransactionManager.record_transaction 0 exTxn exState).2

/-- The cash account as stored in `exState1`. -/
def exCashAfter : Account :=
  { exCash with balance := 5 }

/-- A single-entry transaction referencing a nonexistent account. -/
def exGhostTxn : Transaction :=
  { id := "tg0", date := 0,
    entries :=
      [{ accountId := "ghost", entryType := .Debit, amount := 5,
         description := none }],
    description := "ghost", reference := none, metadata := [],
    createdAt := 0, updatedAt := 0 }

/-- A valid (balanced, two-entry, positive) transaction whose entries
reference only nonexistent accounts. -/
def exGhostTxn2 : Transaction :=
  { id := "tg", date := 0,
    entries :=
      [{ accountId := "ghost1", entryType := .Debit, amount := 5,
         description := none },
       { accountId := "ghost2", entryType := .Credit, amount := 5,
         description := none }],
    description := "ghosts", reference := none, metadata := [],
    createdAt := 0, updatedAt := 0 }

/-- The two fixture accounts plus a stored transaction referencing only
nonexistent accounts. -/
def exStateG : MemoryStorage :=
  { accounts := [("cash", exCash), ("equity", exEquity)],
    transactions := [("tg", exGhostTxn2)] }

/-! ## Association-list lemmas -/

theorem getA_upsertA_self {α : Type} (m : List (String × α)) (k : String)
    (v : α) : getA (upsertA m k v) k = some v := by
  simp [upsertA, getA]

theorem getA_eraseA_self {α : Type} (m : List (String × α)) (k : String) :
    getA (eraseA m k) k = none := by
  induction m with
  | nil => rfl
  | cons p rest ih =>
    by_cases hp : p.1 = k
    · simpa [eraseA, hp] using ih
    · simp [eraseA, hp, getA, ih]

theorem getA_eraseA_ne {α : Type} (m : List (String × α)) {k k' : String}
    (h : k' ≠ k) : getA (eraseA m k) k' = getA m k' := by
  induction m with
  | nil => rfl
  | cons p rest ih =>
    by_cases hp : p.1 = k
    · simp [eraseA, hp, getA, Ne.symm h, ih]
    · simp [eraseA, hp, getA, ih]

theorem getA_upsertA_ne {α : Type} (m : List (String × α)) {k k' : String}
    (v : α) (h : k' ≠ k) : getA (upsertA m k v) k' = getA m k' := by
  have : k ≠ k' := fun hkk => h hkk.symm
  simp [upsertA, getA, this, getA_eraseA_ne m h]

theorem mem_of_getA_eq_some {α : Type} {m : List (String × α)} {k : String}
    {v : α} (h : getA m k = some v) : (k, v) ∈ m := by
  induction m with
  | nil => simp [getA] at h
  | cons p rest ih =>
    obtain ⟨k0, v0⟩ := p
    by_cases hp : k0 = k
    · simp only [getA, hp, if_pos] at h
      simp_all
    · simp only [getA, hp, if_neg, ite_false] at h
      exact List.mem_cons_of_mem _ (ih h)

theorem getA_eq_none_iff {α : Type} {m : List (String × α)} {k : String} :
    getA m k = none ↔ k ∉ keysA m := by
  induction m with
  | nil => simp [getA, keysA]
  | cons p rest ih =>
    by_cases hp : p.1 = k
    · simp [getA, hp, keysA]
    · have hp' : k ≠ p.1 := fun hk => hp hk.symm
      simp [getA, hp, keysA, ih, hp']

theorem getA_of_mem {α : Type} {m : List (String × α)} {k : String} {v : α}
    (hnd : (keysA m).Nodup) (hm : (k, v) ∈ m) : getA m k = some v := by
  induction m with
  | nil => simp at hm
  | cons p rest ih =>
    simp only [keysA, List.map_cons, List.nodup_cons] at hnd
    rcases List.mem_cons.mp hm with hm | hm
    · simp [getA, ← hm]
    · have hk : k ∈ keysA rest := by
        simpa [keysA] using List.mem_map_of_mem (fun q => q.1) hm
      have hp : p.1 ≠ k := fun he => hnd.1 (by simpa [keysA, he] using hk)
      simp [getA, hp, ih hnd.2 hm]

theorem mem_of_mem_eraseA {α : Type} {m : List (String × α)} {k : String}
    {p : String × α} (h : p ∈ eraseA m k) : p ∈ m := by
  induction m with
  | nil => simp [eraseA] at h
  | cons q rest ih =>
    by_cases hq : q.1 = k
    · simp only [eraseA, hq, if_pos] at h
      exact List.mem_cons_of_mem _ (ih h)
    · simp only [eraseA, hq, ite_false] at h
      rcases List.mem_cons.mp h with h | h
      · exact h ▸ List.mem_cons_self _ _
      · exact List.mem_cons_of_mem _ (ih h)

theorem mem_keysA_eraseA {α : Type} {m : List (String × α)}
    {k k' : String} :
    k' ∈ keysA (eraseA m k) ↔ k' ∈ keysA m ∧ k' ≠ k := by
  induction m with
  | nil => simp [eraseA, keysA]
  | cons p rest ih =>
    by_cases hp : p.1 = k
    · subst hp
      simp only [eraseA, if_pos rfl, keysA, List.map_cons, List.mem_cons]
      constructor
      · intro h
        exact ⟨Or.inr ((ih.mp h).1), (ih.mp h).2⟩
      · rintro ⟨h | h, hne⟩
        · exact absurd h hne
        · exact ih.mpr ⟨h, hne⟩
    · simp only [eraseA, hp, ite_false, keysA, List.map_cons, List.mem_cons]
      constructor
      · rintro (h | h)
        · exact ⟨Or.inl h, fun he => hp (h ▸ he ▸ rfl)⟩
        · exact ⟨Or.inr (ih.mp h).1, (ih.mp h).2⟩
      · rintro ⟨h | h, hne⟩
        · exact Or.inl h
        · exact Or.inr (ih.mpr ⟨h, hne⟩)

theorem keysA_eraseA_nodup {α : Type} {m : List (String × α)} (k : String)
    (h : (keysA m).Nodup) : (keysA (eraseA m k)).Nodup := by
  induction m with
  | nil => simp [eraseA, keysA]
  | cons p rest ih =>
    simp only [keysA, List.map_cons, List.nodup_cons] at h
    by_cases hp : p.1 = k
    · simp only [eraseA, hp, if_pos]
      exact ih h.2
    · simp only [eraseA, hp, ite_false, keysA, List.map_cons,
        List.nodup_cons]
      refine ⟨fun hmem => ?_, ih h.2⟩
      exact h.1 (mem_keysA_eraseA.mp hmem).1

theorem keysA_upsertA_nodup {α : Type} {m : List (String × α)}
    (k : String) (v : α) (h : (keysA m).Nodup) :
    (keysA (upsertA m k v)).Nodup := by
  simp only [upsertA, keysA, List.map_cons, List.nodup_cons]
  refine ⟨fun hmem => ?_, keysA_eraseA_nodup k h⟩
  exact (mem_keysA_eraseA.mp hmem).2 rfl

theorem eraseA_eq_of_not_mem {α : Type} {m : List (String × α)}
    {k : String} (h : k ∉ keysA m) : eraseA m k = m := by
  induction m with
  | nil => rfl
  | cons p rest ih =>
    simp only [keysA, List.map_cons, List.mem_cons] at h
    push_neg at h
    have hp : p.1 ≠ k := fun he => h.1 he.symm
    simp [eraseA, hp, ih (by simpa [keysA] using h.2)]

theorem sum_map_eraseA {α : Type} {m : List (String × α)} {k : String}
    {v : α} (f : String × α → ℤ) (hnd : (keysA m).Nodup)
    (hm : (k, v) ∈ m) :
    ((eraseA m k).map f).sum = (m.map f).sum - f (k, v) := by
  induction m with
  | nil => simp at hm
  | cons p rest ih =>
    simp only [keysA, List.map_cons, List.nodup_cons] at hnd
    rcases List.mem_cons.mp hm with hm | hm
    · have hp : p.1 = k := by rw [← hm]
      have hk : k ∉ keysA rest := by
        intro hk
        exact hnd.1 (hp ▸ hk)
      rw [eraseA]
      simp only [hp, if_pos]
      rw [eraseA_eq_of_not_mem hk, ← hm]
      simp [add_comm]
    · have hk : k ∈ keysA rest := by
        simpa [keysA] using List.mem_map_of_mem (fun q => q.1) hm
      have hp : p.1 ≠ k := fun he => hnd.1 (he ▸ hk)
      rw [eraseA]
      simp only [hp, ite_false, List.map_cons, List.sum_cons,
        ih hnd.2 hm]
      ring

/-! ## Generic list-sum lemmas -/

theorem sum_map_zero_fun {β : Type} (l : List β) :
    (l.map (fun _ => (0 : ℤ))).sum = 0 := by
  induction l with
  | nil => simp
  | cons x xs ih => simp [ih]

theorem sum_map_add_fun {β : Type} (l : List β) (f g : β → ℤ) :
    (l.map (fun x => f x + g x)).sum = (l.map f).sum + (l.map g).sum := by
  induction l with
  | nil => simp
  | cons x xs ih => simp [ih]; ring

theorem sum_map_neg_fun {β : Type} (l : List β) (f : β → ℤ) :
    (l.map (fun x => -f x)).sum = -(l.map f).sum := by
  induction l with
  | nil => simp
  | cons x xs ih => simp [ih]; ring

theorem list_sum_comm {β γ : Type} (l1 : List β) (l2 : List γ)
    (g : β → γ → ℤ) :
    (l1.map (fun b => (l2.map (g b)).sum)).sum
      = (l2.map (fun c => (l1.map (fun b => g b c)).sum)).sum := by
  induction l1 with
  | nil => simp [sum_map_zero_fun]
  | cons b bs ih =>
    simp only [List.map_cons, List.sum_cons, ih]
    rw [← sum_map_add_fun]

theorem sum_if_single_zero (l : List String) (x : String) (c : ℤ)
    (hx : x ∉ l) :
    (l.map (fun i => if x = i then c else 0)).sum = 0 := by
  induction l with
  | nil => simp
  | cons a rest ih =>
    simp only [List.mem_cons] at hx
    push_neg at hx
    simp [hx.1, ih hx.2]

theorem sum_if_single (l : List String) (x : String) (c : ℤ)
    (hnd : l.Nodup) (hx : x ∈ l) :
    (l.map (fun i => if x = i then c else 0)).sum = c := by
  induction l with
  | nil => simp at hx
  | cons a rest ih =>
    simp only [List.nodup_cons] at hnd
    rcases List.mem_cons.mp hx with hx | hx
    · subst hx
      simp [sum_if_single_zero rest x c hnd.1]
    · have hax : x ≠ a := fun he => hnd.1 (he ▸ hx)
      simp [hax, ih hnd.2 hx]

theorem sum_filter_of_zero {β : Type} (l : List β) (f : β → ℤ)
    (p q : β → Bool)
    (himp : ∀ x ∈ l, p x = true → q x = true)
    (hzero : ∀ x ∈ l, q x = true → p x = false → f x = 0) :
    ((l.filter p).map f).sum = ((l.filter q).map f).sum := by
  induction l with
  | nil => simp
  | cons a rest ih =>
    have ih' := ih (fun x hx => himp x (List.mem_cons_of_mem _ hx))
      (fun x hx => hzero x (List.mem_cons_of_mem _ hx))
    cases hp : p a with
    | true =>
      have hq := himp a (List.mem_cons_self _ _) hp
      simp [List.filter_cons, hp, hq, ih']
    | false =>
      cases hq : q a with
      | true =>
        have hfa := hzero a (List.mem_cons_self _ _) hq hp
        simp [List.filter_cons, hp, hq, hfa, ih']
      | false =>
        simp [List.filter_cons, hp, hq, ih']

/-! ## Entry-level lemmas -/

theorem entryDelta_nil (ty : AccountType) (id : String) :
    entryDelta ty id [] = 0 := rfl

theorem entryDelta_cons (ty : AccountType) (id : String) (e : Entry)
    (es : List Entry) :
    entryDelta ty id (e :: es)
      = (if e.accountId = id then signedAmount ty.normal_balance e else 0)
        + entryDelta ty id es := by
  by_cases h : e.accountId = id <;>
    simp [entryDelta, List.filter_cons, h]

theorem debitDelta_nil (id : String) : debitDelta id [] = 0 := rfl

theorem debitDelta_cons (id : String) (e : Entry) (es : List Entry) :
    debitDelta id (e :: es)
      = (if e.accountId = id then
           match e.entryType with
           | .Debit => e.amount
           | .Credit => -e.amount
         else 0) + debitDelta id es := by
  by_cases h : e.accountId = id <;>
    simp [debitDelta, List.filter_cons, h]

theorem entryDelta_eq_zero_of_no_ref (ty : AccountType) (id : String)
    (es : List Entry) (h : ∀ e ∈ es, ¬(e.accountId = id)) :
    entryDelta ty id es = 0 := by
  induction es with
  | nil => rfl
  | cons e rest ih =>
    rw [entryDelta_cons, if_neg (h e (List.mem_cons_self _ _)),
      ih (fun x hx => h x (List.mem_cons_of_mem _ hx))]
    simp

theorem signedAmount_flipEntry (normal : EntryType) (e : Entry) :
    signedAmount normal (flipEntry e) = -signedAmount normal e := by
  cases normal <;> cases he : e.entryType <;>
    simp [signedAmount, flipEntry, signed, he]

theorem entryDelta_map_flip (ty : AccountType) (id : String)
    (es : List Entry) :
    entryDelta ty id (es.map flipEntry) = -entryDelta ty id es := by
  induction es with
  | nil => simp [entryDelta]
  | cons e rest ih =>
    have hid : (flipEntry e).accountId = e.accountId := rfl
    rw [List.map_cons, entryDelta_cons, entryDelta_cons, ih, hid,
      signedAmount_flipEntry]
    by_cases h : e.accountId = id <;> (simp [h]; try ring)

theorem apply_entry_balance (a : Account) (et : EntryType) (amt : ℤ)
    (now : Int) :
    (a.apply_entry et amt now).balance
      = a.balance + signed a.accountType.normal_balance et amt := by
  cases hn : a.accountType.normal_balance <;> cases et <;>
    simp [Account.apply_entry, hn, signed, sub_eq_add_neg]

theorem apply_entry_id (a : Account) (et : EntryType) (amt : ℤ)
    (now : Int) : (a.apply_entry et amt now).id = a.id := by
  cases hn : a.accountType.normal_balance <;> cases et <;>
    simp [Account.apply_entry, hn]

theorem apply_entry_accountType (a : Account) (et : EntryType) (amt : ℤ)
    (now : Int) :
    (a.apply_entry et amt now).accountType = a.accountType := by
  cases hn : a.accountType.normal_balance <;> cases et <;>
    simp [Account.apply_entry, hn]

theorem apply_entry_name (a : Account) (et : EntryType) (amt : ℤ)
    (now : Int) : (a.apply_entry et amt now).name = a.name := by
  cases hn : a.accountType.normal_balance <;> cases et <;>
    simp [Account.apply_entry, hn]

theorem apply_entry_parentId (a : Account) (et : EntryType) (amt : ℤ)
    (now : Int) : (a.apply_entry et amt now).parentId = a.parentId := by
  cases hn : a.accountType.normal_balance <;> cases et <;>
    simp [Account.apply_entry, hn]

theorem apply_entry_metadata (a : Account) (et : EntryType) (amt : ℤ)
    (now : Int) : (a.apply_entry et amt now).metadata = a.metadata := by
  cases hn : a.accountType.normal_balance <;> cases et <;>
    simp [Account.apply_entry, hn]

theorem apply_entry_createdAt (a : Account) (et : EntryType) (amt : ℤ)
    (now : Int) : (a.apply_entry et amt now).createdAt = a.createdAt := by
  cases hn : a.accountType.normal_balance <;> cases et <;>
    simp [Account.apply_entry, hn]

/-- The reversal loop is the application loop run on flipped entries. -/
theorem reverseEntries_eq_applyEntries_flip (now : Int) (es : List Entry)
    (s : MemoryStorage) :
    TransactionManager.reverseEntries now es s
      = TransactionManager.applyEntries now (es.map flipEntry) s := by
  induction es generalizing s with
  | nil => rfl
  | cons e rest ih =>
    show TransactionManager.reverseEntries now (e :: rest) s
      = TransactionManager.applyEntries now (flipEntry e :: rest.map flipEntry) s
    rw [TransactionManager.reverseEntries, TransactionManager.applyEntries]
    have hid : (flipEntry e).accountId = e.accountId := rfl
    rw [hid]
    cases hacc : s.get_account e.accountId with
    | none => exact ih s
    | some a =>
      have hflip : (flipEntry e).entryType
          = (match e.entryType with
             | EntryType.Debit => EntryType.Credit
             | EntryType.Credit => EntryType.Debit) := rfl
      have hamt : (flipEntry e).amount = e.amount := rfl
      rw [hflip, hamt]
      cases hu : s.update_account
          (a.apply_entry
            (match e.entryType with
             | EntryType.Debit => EntryType.Credit
             | EntryType.Credit => EntryType.Debit) e.amount now) with
      | ok s1 => simpa [hu] using ih s1
      | error err => simp [hu]

/-! ## Characterization of the entry-application loops -/

theorem applyEntries_spec (now : Int) (es : List Entry) :
    ∀ (s : MemoryStorage), AccWF s.accounts →
    ∃ s', TransactionManager.applyEntries now es s = (.ok (), s') ∧
      s'.transactions = s.transactions ∧
      AccWF s'.accounts ∧
      (∀ k, getA s'.accounts k = none ↔ getA s.accounts k = none) ∧
      (∀ k a, getA s.accounts k = some a →
        ∃ a', getA s'.accounts k = some a' ∧ a'.id = a.id ∧
          a'.accountType = a.accountType ∧
          a'.balance = a.balance + entryDelta a.accountType k es) := by
  induction es with
  | nil =>
    intro s h
    exact ⟨s, rfl, rfl, h, fun _ => Iff.rfl, fun k a hk =>
      ⟨a, hk, rfl, rfl, by simp [entryDelta_nil]⟩⟩
  | cons e rest ih =>
    intro s h
    rw [TransactionManager.applyEntries]
    cases hacc : s.get_account e.accountId with
    | none =>
      obtain ⟨s', hrun, htx, hwf, hnone, hchar⟩ := ih s h
      refine ⟨s', hrun, htx, hwf, hnone, ?_⟩
      intro k a hk
      obtain ⟨a', ha', hid', hty', hbal'⟩ := hchar k a hk
      have hne : ¬(e.accountId = k) := by
        intro he
        rw [MemoryStorage.get_account, he, hk] at hacc
        exact Option.noConfusion hacc
      refine ⟨a', ha', hid', hty', ?_⟩
      rw [hbal', entryDelta_cons, if_neg hne, zero_add]
    | some account =>
      have hacc' : getA s.accounts e.accountId = some account := hacc
      have hmem := mem_of_getA_eq_some hacc'
      have hid : e.accountId = account.id := h.2 _ hmem
      have ha1id : (account.apply_entry e.entryType e.amount now).id
          = account.id := apply_entry_id account e.entryType e.amount now
      have hupd : s.update_account (account.apply_entry e.entryType e.amount now)
          = .ok (MemoryStorage.mk
              (upsertA s.accounts
                (account.apply_entry e.entryType e.amount now).id
                (account.apply_entry e.entryType e.amount now))
              s.transactions) := by
        have hsome : (getA s.accounts
            (account.apply_entry e.entryType e.amount now).id).isSome = true := by
          rw [ha1id, ← hid, hacc']
          rfl
        simp only [MemoryStorage.update_account, hsome, if_true]
      have hwf1 : AccWF (upsertA s.accounts
          (account.apply_entry e.entryType e.amount now).id
          (account.apply_entry e.entryType e.amount now)) := by
        constructor
        · exact keysA_upsertA_nodup _ _ h.1
        · intro p hp
          rcases List.mem_cons.mp hp with hp | hp
          · rw [hp]
          · exact h.2 p (mem_of_mem_eraseA hp)
      obtain ⟨s', hrun, htx, hwf, hnone, hchar⟩ :=
        ih (MemoryStorage.mk
              (upsertA s.accounts
                (account.apply_entry e.entryType e.amount now).id
                (account.apply_entry e.entryType e.amount now))
              s.transactions) hwf1
      refine ⟨s', ?_, htx, hwf, ?_, ?_⟩
      · simpa [hupd] using hrun
      · intro k
        rw [hnone k]
        by_cases hk : k = (account.apply_entry e.entryType e.amount now).id
        · have hsk : getA s.accounts
              ((account.apply_entry e.entryType e.amount now).id)
              = some account := by
            rw [ha1id, ← hid]
            exact hacc'
          simp [hk, getA_upsertA_self, hsk]
        · simp [getA_upsertA_ne _ _ hk]
      · intro k a hk
        by_cases hke : k = e.accountId
        · have haeq : a = account := by
            rw [hke, hacc'] at hk
            exact (Option.some.inj hk).symm
          have hk1 : getA (upsertA s.accounts
              (account.apply_entry e.entryType e.amount now).id
              (account.apply_entry e.entryType e.amount now)) k
              = some (account.apply_entry e.entryType e.amount now) := by
            rw [show k = (account.apply_entry e.entryType e.amount now).id by
                rw [ha1id, ← hid, hke]]
            exact getA_upsertA_self _ _ _
          obtain ⟨a', ha', hid', hty', hbal'⟩ := hchar k _ hk1
          refine ⟨a', ha', ?_, ?_, ?_⟩
          · rw [hid', ha1id, haeq]
          · rw [hty', apply_entry_accountType, haeq]
          · rw [hbal', apply_entry_balance, apply_entry_accountType, haeq,
              entryDelta_cons, if_pos hke.symm]
            have : signedAmount account.accountType.normal_balance e
                = signed account.accountType.normal_balance e.entryType
                    e.amount := rfl
            rw [this]
            ring
        · have hne : k ≠ (account.apply_entry e.entryType e.amount now).id := by
            rw [ha1id, ← hid]
            exact fun he => hke he
          have hk1 : getA (upsertA s.accounts
              (account.apply_entry e.entryType e.amount now).id
              (account.apply_entry e.entryType e.amount now)) k
              = some a := by
            rw [getA_upsertA_ne _ _ hne]
            exact hk
          obtain ⟨a', ha', hid', hty', hbal'⟩ := hchar k a hk1
          refine ⟨a', ha', hid', hty', ?_⟩
          rw [hbal', entryDelta_cons, if_neg (fun he => hke he.symm),
            zero_add]

theorem reverseEntries_spec (now : Int) (es : List Entry)
    (s : MemoryStorage) (h : AccWF s.accounts) :
    ∃ s', TransactionManager.reverseEntries now es s = (.ok (), s') ∧
      s'.transactions = s.transactions ∧
      AccWF s'.accounts ∧
      (∀ k, getA s'.accounts k = none ↔ getA s.accounts k = none) ∧
      (∀ k a, getA s.accounts k = some a →
        ∃ a', getA s'.accounts k = some a' ∧ a'.id = a.id ∧
          a'.accountType = a.accountType ∧
          a'.balance = a.balance - entryDelta a.accountType k es) := by
  obtain ⟨s', hrun, htx, hwf, hnone, hchar⟩ :=
    applyEntries_spec now (es.map flipEntry) s h
  refine ⟨s', ?_, htx, hwf, hnone, ?_⟩
  · rw [reverseEntries_eq_applyEntries_flip]
    exact hrun
  · intro k a hk
    obtain ⟨a', h1, h2, h3, h4⟩ := hchar k a hk
    refine ⟨a', h1, h2, h3, ?_⟩
    rw [h4, entryDelta_map_flip]
    ring

theorem applyEntries_all_missing (now : Int) (es : List Entry) :
    ∀ (s : MemoryStorage), (∀ e ∈ es, s.get_account e.accountId = none) →
      TransactionManager.applyEntries now es s = (.ok (), s) := by
  induction es with
  | nil => intro s _; rfl
  | cons e rest ih =>
    intro s h
    rw [TransactionManager.applyEntries]
    rw [h e (List.mem_cons_self _ _)]
    exact ih s (fun x hx => h x (List.mem_cons_of_mem _ hx))

theorem reverseEntries_all_missing (now : Int) (es : List Entry)
    (s : MemoryStorage) (h : ∀ e ∈ es, s.get_account e.accountId = none) :
    TransactionManager.reverseEntries now es s = (.ok (), s) := by
  rw [reverseEntries_eq_applyEntries_flip]
  refine applyEntries_all_missing now _ s ?_
  intro e he
  obtain ⟨e0, he0, rfl⟩ := List.mem_map.mp he
  exact h e0 he0

/-! ## Characterization of the manager operations -/

theorem stamped_entries (t : Transaction) (now : Int) :
    (Transaction.mk t.id t.date t.entries t.description t.reference
      t.metadata t.createdAt now).entries = t.entries := rfl

theorem record_ok_spec (now : Int) (t : Transaction) (s s1 : MemoryStorage)
    (hwf : AccWF s.accounts)
    (hrec : TransactionManager.record_transaction now t s = (.ok (), s1)) :
    t.validate = .ok () ∧
    s1.transactions
      = upsertA s.transactions t.id { t with updatedAt := now } ∧
    AccWF s1.accounts ∧
    (∀ k, getA s1.accounts k = none ↔ getA s.accounts k = none) ∧
    (∀ k a, getA s.accounts k = some a →
      ∃ a', getA s1.accounts k = some a' ∧ a'.id = a.id ∧
        a'.accountType = a.accountType ∧
        a'.balance = a.balance + entryDelta a.accountType k t.entries) := by
  cases hv : t.validate with
  | error e =>
    rw [TransactionManager.record_transaction, hv] at hrec
    exact absurd hrec (by simp)
  | ok u =>
    cases hf : t.entries.find? (fun e => (s.get_account e.accountId).isNone)
      with
    | some e =>
      rw [TransactionManager.record_transaction, hv, hf] at hrec
      exact absurd hrec (by simp)
    | none =>
      rw [TransactionManager.record_transaction, hv, hf] at hrec
      obtain ⟨s', hrun, htx, hwf', hnone, hchar⟩ :=
        applyEntries_spec now t.entries
          (s.save_transaction { t with updatedAt := now }) hwf
      have hrec' :
          TransactionManager.applyEntries now t.entries
            (s.save_transaction { t with updatedAt := now })
            = (.ok (), s1) := hrec
      have hs1 : s' = s1 := congrArg Prod.snd (hrun.symm.trans hrec')
      subst hs1
      refine ⟨rfl, ?_, hwf', hnone, hchar⟩
      exact htx

theorem delete_ok_spec (now : Int) (tid : String) (t : Transaction)
    (s : MemoryStorage) (hwf : AccWF s.accounts)
    (hstored : s.get_transaction tid = some t) :
    ∃ s2, TransactionManager.delete_transaction now tid s = (.ok (), s2) ∧
      s2.transactions = eraseA s.transactions tid ∧
      AccWF s2.accounts ∧
      (∀ k, getA s2.accounts k = none ↔ getA s.accounts k = none) ∧
      (∀ k a, getA s.accounts k = some a →
        ∃ a', getA s2.accounts k = some a' ∧ a'.id = a.id ∧
          a'.accountType = a.accountType ∧
          a'.balance = a.balance - entryDelta a.accountType k t.entries) := by
  obtain ⟨s1, hrev, htx, hwf1, hnone, hchar⟩ :=
    reverseEntries_spec now t.entries s hwf
  have hsome : (getA s1.transactions tid).isSome = true := by
    rw [htx, show getA s.transactions tid = some t from hstored]
    rfl
  have hdel : s1.delete_transaction tid
      = .ok (MemoryStorage.mk s1.accounts (eraseA s1.transactions tid)) := by
    simp only [MemoryStorage.delete_transaction, hsome, if_true]
  refine ⟨MemoryStorage.mk s1.accounts (eraseA s1.transactions tid),
    ?_, ?_, hwf1, hnone, hchar⟩
  · simp only [TransactionManager.delete_transaction, hstored, hrev, hdel]
  · simp [htx]

theorem update_ok_spec (now : Int) (t told : Transaction)
    (s : MemoryStorage) (hwf : AccWF s.accounts)
    (hstored : s.get_transaction t.id = some told)
    (hv : t.validate = .ok ()) :
    ∃ s3, TransactionManager.update_transaction now t s = (.ok (), s3) ∧
      s3.transactions = upsertA s.transactions t.id t ∧
      AccWF s3.accounts ∧
      (∀ k, getA s3.accounts k = none ↔ getA s.accounts k = none) ∧
      (∀ k a, getA s.accounts k = some a →
        ∃ a', getA s3.accounts k = some a' ∧ a'.id = a.id ∧
          a'.accountType = a.accountType ∧
          a'.balance = a.balance - entryDelta a.accountType k told.entries
            + entryDelta a.accountType k t.entries) := by
  obtain ⟨s1, hrev, htx1, hwf1, hnone1, hchar1⟩ :=
    reverseEntries_spec now told.entries s hwf
  obtain ⟨s2, happ, htx2, hwf2, hnone2, hchar2⟩ :=
    applyEntries_spec now t.entries s1 hwf1
  have hsome : (getA s2.transactions t.id).isSome = true := by
    rw [htx2, htx1, show getA s.transactions t.id = some told from hstored]
    rfl
  have hupd : s2.update_transaction t
      = .ok (MemoryStorage.mk s2.accounts
          (upsertA s2.transactions t.id t)) := by
    simp only [MemoryStorage.update_transaction, hsome, if_true]
  refine ⟨MemoryStorage.mk s2.accounts (upsertA s2.transactions t.id t),
    ?_, ?_, hwf2, ?_, ?_⟩
  · simp only [TransactionManager.update_transaction, hstored, hv, hrev,
      happ, hupd]
  · simp [htx2, htx1]
  · intro k
    rw [show (MemoryStorage.mk s2.accounts
        (upsertA s2.transactions t.id t)).accounts = s2.accounts from rfl,
      hnone2 k, hnone1 k]
  · intro k a hk
    obtain ⟨a1, ha1, hid1, hty1, hbal1⟩ := hchar1 k a hk
    obtain ⟨a2, ha2, hid2, hty2, hbal2⟩ := hchar2 k a1 ha1
    refine ⟨a2, ha2, hid2.trans hid1, hty2.trans hty1, ?_⟩
    rw [hbal2, hbal1, hty1]

/-! ## Preservation of the live/replay invariant -/

theorem replayTotal_def (s : MemoryStorage) (ty : AccountType)
    (id : String) :
    replayTotal s ty id
      = (s.transactions.map (fun p => entryDelta ty id p.2.entries)).sum :=
  rfl

theorem consistent_of_char (s s' : MemoryStorage)
    (δ : AccountType → String → ℤ)
    (hwf : AccWF s.accounts) (hwf' : AccWF s'.accounts)
    (hcons : Consistent s)
    (hnone : ∀ k, getA s'.accounts k = none ↔ getA s.accounts k = none)
    (hchar : ∀ k a, getA s.accounts k = some a →
      ∃ a', getA s'.accounts k = some a' ∧ a'.id = a.id ∧
        a'.accountType = a.accountType ∧
        a'.balance = a.balance + δ a.accountType k)
    (hrt : ∀ ty id, replayTotal s' ty id = replayTotal s ty id + δ ty id) :
    Consistent s' := by
  intro p hp
  have hg' : getA s'.accounts p.1 = some p.2 := getA_of_mem hwf'.1 hp
  cases hs : getA s.accounts p.1 with
  | none =>
    rw [(hnone p.1).mpr hs] at hg'
    exact Option.noConfusion hg'
  | some a =>
    obtain ⟨a', ha', hid', hty', hbal'⟩ := hchar p.1 a hs
    have ha'2 : a' = p.2 := by
      rw [hg'] at ha'
      exact (Option.some.inj ha').symm
    have hmem : (p.1, a) ∈ s.accounts := mem_of_getA_eq_some hs
    have hbalance := hcons _ hmem
    have hida : p.1 = a.id := hwf.2 _ hmem
    rw [← ha'2, hbal', hty', hid', hbalance, hrt, hida]

theorem record_preserves_inv (now : Int) (t : Transaction)
    (s : MemoryStorage) (hInv : Inv s)
    (hfresh : s.get_transaction t.id = none) :
    Inv (TransactionManager.record_transaction now t s).2 := by
  obtain ⟨⟨hacc, hndt, hcot⟩, hcons⟩ := hInv
  cases hv : t.validate with
  | error e =>
    simp only [TransactionManager.record_transaction, hv]
    exact ⟨⟨hacc, hndt, hcot⟩, hcons⟩
  | ok u =>
    cases hf : t.entries.find? (fun e => (s.get_account e.accountId).isNone)
      with
    | some e =>
      simp only [TransactionManager.record_transaction, hv, hf]
      exact ⟨⟨hacc, hndt, hcot⟩, hcons⟩
    | none =>
      obtain ⟨s', hrun, htx, hwf', hnone, hchar⟩ :=
        applyEntries_spec now t.entries
          (s.save_transaction { t with updatedAt := now }) hacc
      have hres : (TransactionManager.record_transaction now t s).2 = s' := by
        rw [TransactionManager.record_transaction, hv, hf]
        exact congrArg Prod.snd hrun
      rw [hres]
      have hfresh' : t.id ∉ keysA s.transactions :=
        getA_eq_none_iff.mp hfresh
      have htx' : s'.transactions
          = (t.id, { t with updatedAt := now }) :: s.transactions := by
        rw [htx,
          show (s.save_transaction { t with updatedAt := now }).transactions
            = upsertA s.transactions t.id { t with updatedAt := now }
            from rfl,
          upsertA, eraseA_eq_of_not_mem hfresh']
      refine ⟨⟨hwf', ?_, ?_⟩, ?_⟩
      · rw [htx', show keysA ((t.id, { t with updatedAt := now })
          :: s.transactions) = t.id :: keysA s.transactions from rfl]
        exact List.nodup_cons.mpr ⟨hfresh', hndt⟩
      · rw [htx']
        intro p hp
        rcases List.mem_cons.mp hp with hp | hp
        · rw [hp]
        · exact hcot p hp
      · refine consistent_of_char s s'
          (fun ty k => entryDelta ty k t.entries) hacc hwf' hcons hnone
          hchar ?_
        intro ty id
        rw [replayTotal_def, replayTotal_def, htx', List.map_cons,
          List.sum_cons, stamped_entries]
        ring

theorem update_preserves_inv (now : Int) (t : Transaction)
    (s : MemoryStorage) (hInv : Inv s) :
    Inv (TransactionManager.update_transaction now t s).2 := by
  obtain ⟨⟨hacc, hndt, hcot⟩, hcons⟩ := hInv
  cases hst : s.get_transaction t.id with
  | none =>
    simp only [TransactionManager.update_transaction, hst]
    exact ⟨⟨hacc, hndt, hcot⟩, hcons⟩
  | some told =>
    cases hv : t.validate with
    | error e =>
      simp only [TransactionManager.update_transaction, hst, hv]
      exact ⟨⟨hacc, hndt, hcot⟩, hcons⟩
    | ok u =>
      have hv' : t.validate = .ok () := hv
      obtain ⟨s3, hupd, htx3, hwf3, hnone3, hchar3⟩ :=
        update_ok_spec now t told s hacc hst hv'
      have hres : (TransactionManager.update_transaction now t s).2 = s3 :=
        congrArg Prod.snd hupd
      rw [hres]
      have hmemtx : (t.id, told) ∈ s.transactions :=
        mem_of_getA_eq_some hst
      refine ⟨⟨hwf3, ?_, ?_⟩, ?_⟩
      · rw [htx3]
        exact keysA_upsertA_nodup _ _ hndt
      · rw [htx3]
        intro p hp
        rcases List.mem_cons.mp hp with hp | hp
        · rw [hp]
        · exact hcot p (mem_of_mem_eraseA hp)
      · refine consistent_of_char s s3
          (fun ty k => entryDelta ty k t.entries
            - entryDelta ty k told.entries) hacc hwf3 hcons hnone3
          ?_ ?_
        · intro k a hk
          obtain ⟨a', h1, h2, h3, h4⟩ := hchar3 k a hk
          refine ⟨a', h1, h2, h3, ?_⟩
          rw [h4]
          ring
        · intro ty id
          rw [replayTotal_def, replayTotal_def, htx3, upsertA,
            List.map_cons, List.sum_cons,
            sum_map_eraseA (fun p => entryDelta ty id p.2.entries)
              hndt hmemtx]
          ring

theorem delete_preserves_inv (now : Int) (tid : String)
    (s : MemoryStorage) (hInv : Inv s) :
    Inv (TransactionManager.delete_transaction now tid s).2 := by
  obtain ⟨⟨hacc, hndt, hcot⟩, hcons⟩ := hInv
  cases hst : s.get_transaction tid with
  | none =>
    simp only [TransactionManager.delete_transaction, hst]
    exact ⟨⟨hacc, hndt, hcot⟩, hcons⟩
  | some told =>
    obtain ⟨s2, hdel, htx2, hwf2, hnone2, hchar2⟩ :=
      delete_ok_spec now tid told s hacc hst
    have hres : (TransactionManager.delete_transaction now tid s).2 = s2 :=
      congrArg Prod.snd hdel
    rw [hres]
    have hmemtx : (tid, told) ∈ s.transactions :=
      mem_of_getA_eq_some hst
    refine ⟨⟨hwf2, ?_, ?_⟩, ?_⟩
    · rw [htx2]
      exact keysA_eraseA_nodup _ hndt
    · rw [htx2]
      intro p hp
      exact hcot p (mem_of_mem_eraseA hp)
    · refine consistent_of_char s s2
        (fun ty k => -entryDelta ty k told.entries) hacc hwf2 hcons hnone2
        ?_ ?_
      · intro k a hk
        obtain ⟨a', h1, h2, h3, h4⟩ := hchar2 k a hk
        refine ⟨a', h1, h2, h3, ?_⟩
        rw [h4]
        ring
      · intro ty id
        rw [replayTotal_def, replayTotal_def, htx2,
          sum_map_eraseA (fun p => entryDelta ty id p.2.entries)
            hndt hmemtx]
        ring

theorem runOps_preserves_inv (ops : List LedgerOp) :
    ∀ (s : MemoryStorage), Inv s → FreshRun s ops →
      Inv (runOps ops s) := by
  induction ops with
  | nil => intro s h _; exact h
  | cons op rest ih =>
    intro s h hfr
    rw [runOps]
    obtain ⟨hop, hrest⟩ := hfr
    refine ih (applyOp op s) ?_ hrest
    cases op with
    | record now t => exact record_preserves_inv now t s h hop
    | update now t => exact update_preserves_inv now t s h
    | delete now tid => exact delete_preserves_inv now tid s h

/-! ## The date-bounded replay of `get_account_balance` -/

theorem replay_inner_foldl_eq (account : Account) (id : String)
    (es : List Entry) (b0 : ℤ) :
    es.foldl (fun balance e =>
      if e.accountId = id then
        match account.accountType.normal_balance, e.entryType with
        | .Debit, .Debit | .Credit, .Credit => balance + e.amount
        | .Debit, .Credit | .Credit, .Debit => balance - e.amount
      else balance) b0 = b0 + entryDelta account.accountType id es := by
  induction es generalizing b0 with
  | nil => simp [entryDelta_nil]
  | cons e rest ih =>
    rw [List.foldl_cons, ih, entryDelta_cons]
    by_cases h : e.accountId = id
    · rw [if_pos h, if_pos h]
      cases hn : account.accountType.normal_balance <;>
        cases he : e.entryType <;>
          simp [signedAmount, signed, hn, he, sub_eq_add_neg] <;> ring
    · rw [if_neg h, if_neg h]
      ring

theorem replay_foldl_eq (account : Account) (id : String)
    (L : List Transaction) (b0 : ℤ) :
    L.foldl (fun balance t =>
      t.entries.foldl (fun balance e =>
        if e.accountId = id then
          match account.accountType.normal_balance, e.entryType with
          | .Debit, .Debit | .Credit, .Credit => balance + e.amount
          | .Debit, .Credit | .Credit, .Debit => balance - e.amount
        else balance) balance) b0
      = b0 + (L.map
          (fun t => entryDelta account.accountType id t.entries)).sum := by
  induction L generalizing b0 with
  | nil => simp
  | cons t rest ih =>
    rw [List.foldl_cons, ih, replay_inner_foldl_eq, List.map_cons,
      List.sum_cons]
    ring

theorem txnMatches_true_iff (id : String) (d : Int) (t : Transaction) :
    MemoryStorage.txnMatches id none (some d) t = true
      ↔ (t.entries.any (fun e => decide (e.accountId = id)) = true)
        ∧ t.date ≤ d := by
  unfold MemoryStorage.txnMatches
  cases hany : t.entries.any (fun e => decide (e.accountId = id)) with
  | false => simp [hany]
  | true =>
    by_cases hdd : d < t.date
    · simp [hany, hdd]
    · simp [hany, hdd]
      omega

theorem get_account_balance_asOf (s : MemoryStorage) (id : String)
    (account : Account) (d : Int)
    (hacc : s.get_account id = some account) :
    s.get_account_balance id (some d)
      = .ok (replayAsOf s d account.accountType id) := by
  simp only [MemoryStorage.get_account_balance, hacc]
  rw [replay_foldl_eq account id _ 0, zero_add,
    MemoryStorage.get_account_transactions, replayAsOf]
  refine congrArg Except.ok (sum_filter_of_zero _ _ _ _ ?_ ?_)
  · intro t _ hp
    have := (txnMatches_true_iff id d t).mp hp
    simp [this.2]
  · intro t _ hq hp
    refine entryDelta_eq_zero_of_no_ref _ _ _ ?_
    intro e he hid
    have hd : t.date ≤ d := by simpa using hq
    have hany : t.entries.any (fun e => decide (e.accountId = id))
        = true := by
      refine List.any_eq_true.mpr ⟨e, he, ?_⟩
      simp [hid]
    have := (txnMatches_true_iff id d t).mpr ⟨hany, hd⟩
    rw [this] at hp
    exact Bool.noConfusion hp

theorem get_account_balance_none (s : MemoryStorage) (id : String)
    (account : Account) (hacc : s.get_account id = some account) :
    s.get_account_balance id none = .ok account.balance := by
  simp only [MemoryStorage.get_account_balance, hacc]

/-! ## Trial balance -/

theorem list_accounts_none (s : MemoryStorage) :
    s.list_accounts none = s.accounts.map (fun p => p.2) := by
  unfold MemoryStorage.list_accounts
  simp

theorem list_accounts_lookup (s : MemoryStorage) (hwf : AccWF s.accounts) :
    ∀ a ∈ s.list_accounts none, s.get_account a.id = some a := by
  intro a ha
  rw [list_accounts_none] at ha
  obtain ⟨p, hp, rfl⟩ := List.mem_map.mp ha
  have hco : p.1 = p.2.id := hwf.2 p hp
  show getA s.accounts p.2.id = some p.2
  rw [← hco]
  exact getA_of_mem hwf.1 (by rw [show (p.1, p.2) = p from rfl]; exact hp)

theorem mem_keysA_of_getA_isSome {α : Type} {m : List (String × α)}
    {k : String} (h : (getA m k).isSome = true) : k ∈ keysA m := by
  cases hg : getA m k with
  | none => rw [hg] at h; exact Bool.noConfusion h
  | some v =>
    simpa [keysA] using
      List.mem_map_of_mem (fun q => q.1) (mem_of_getA_eq_some hg)

theorem trialLoop_spec (s : MemoryStorage) (d : Int) :
    ∀ (accs : List Account), (∀ a ∈ accs, s.get_account a.id = some a) →
    ∀ (bals : List (String × AccountBalance)) (td tc : ℤ),
    ∃ bals' td' tc',
      MemoryStorage.trialLoop s d accs bals td tc = .ok (bals', td', tc') ∧
      td' - tc' = (td - tc) + (accs.map (debitSignedAsOf s d)).sum := by
  intro accs
  induction accs with
  | nil =>
    intro _ bals td tc
    exact ⟨bals, td, tc, rfl, by simp⟩
  | cons a rest ih =>
    intro hex bals td tc
    have hb := get_account_balance_asOf s a.id a d
      (hex a (List.mem_cons_self _ _))
    have ihx := ih (fun x hx => hex x (List.mem_cons_of_mem _ hx))
    cases hn : a.accountType.normal_balance with
    | Debit =>
      by_cases hpos : 0 ≤ replayAsOf s d a.accountType a.id
      · obtain ⟨bals', td', tc', hloop, hdiff⟩ :=
          ihx (upsertA bals a.id
            ⟨a, some (replayAsOf s d a.accountType a.id), none⟩)
            (td + replayAsOf s d a.accountType a.id) tc
        refine ⟨bals', td', tc', ?_, ?_⟩
        · simp only [MemoryStorage.trialLoop, hb, hn, if_pos hpos]
          exact hloop
        · rw [hdiff, List.map_cons, List.sum_cons,
            show debitSignedAsOf s d a = replayAsOf s d a.accountType a.id
              by simp [debitSignedAsOf, hn]]
          ring
      · obtain ⟨bals', td', tc', hloop, hdiff⟩ :=
          ihx (upsertA bals a.id
            ⟨a, none, some (abs (replayAsOf s d a.accountType a.id))⟩)
            td (tc + abs (replayAsOf s d a.accountType a.id))
        refine ⟨bals', td', tc', ?_, ?_⟩
        · simp only [MemoryStorage.trialLoop, hb, hn, if_neg hpos]
          exact hloop
        · rw [hdiff, List.map_cons, List.sum_cons,
            show debitSignedAsOf s d a = replayAsOf s d a.accountType a.id
              by simp [debitSignedAsOf, hn],
            abs_of_neg (not_le.mp hpos)]
          ring
    | Credit =>
      by_cases hpos : 0 ≤ replayAsOf s d a.accountType a.id
      · obtain ⟨bals', td', tc', hloop, hdiff⟩ :=
          ihx (upsertA bals a.id
            ⟨a, none, some (replayAsOf s d a.accountType a.id)⟩)
            td (tc + replayAsOf s d a.accountType a.id)
        refine ⟨bals', td', tc', ?_, ?_⟩
        · simp only [MemoryStorage.trialLoop, hb, hn, if_pos hpos]
          exact hloop
        · rw [hdiff, List.map_cons, List.sum_cons,
            show debitSignedAsOf s d a
                = -(replayAsOf s d a.accountType a.id)
              by simp [debitSignedAsOf, hn]]
          ring
      · obtain ⟨bals', td', tc', hloop, hdiff⟩ :=
          ihx (upsertA bals a.id
            ⟨a, some (abs (replayAsOf s d a.accountType a.id)), none⟩)
            (td + abs (replayAsOf s d a.accountType a.id)) tc
        refine ⟨bals', td', tc', ?_, ?_⟩
        · simp only [MemoryStorage.trialLoop, hb, hn, if_neg hpos]
          exact hloop
        · rw [hdiff, List.map_cons, List.sum_cons,
            show debitSignedAsOf s d a
                = -(replayAsOf s d a.accountType a.id)
              by simp [debitSignedAsOf, hn],
            abs_of_neg (not_le.mp hpos)]
          ring

theorem entryDelta_normal_debit (ty : AccountType) (id : String)
    (es : List Entry) (hn : ty.normal_balance = .Debit) :
    entryDelta ty id es = debitDelta id es := by
  unfold entryDelta debitDelta
  congr 1
  refine List.map_congr_left ?_
  intro e _
  cases he : e.entryType <;> simp [signedAmount, signed, hn, he]

theorem entryDelta_normal_credit (ty : AccountType) (id : String)
    (es : List Entry) (hn : ty.normal_balance = .Credit) :
    entryDelta ty id es = -(debitDelta id es) := by
  unfold entryDelta debitDelta
  rw [← sum_map_neg_fun]
  congr 1
  refine List.map_congr_left ?_
  intro e _
  cases he : e.entryType <;> simp [signedAmount, signed, hn, he]

theorem debitSignedAsOf_eq (s : MemoryStorage) (d : Int) (a : Account) :
    debitSignedAsOf s d a
      = (((s.transactions.map (fun p => p.2)).filter
            (fun t => decide (t.date ≤ d))).map
          (fun t => debitDelta a.id t.entries)).sum := by
  cases hn : a.accountType.normal_balance with
  | Debit =>
    rw [show debitSignedAsOf s d a = replayAsOf s d a.accountType a.id by
        simp [debitSignedAsOf, hn]]
    unfold replayAsOf
    congr 1
    exact List.map_congr_left (fun t _ => entryDelta_normal_debit _ _ _ hn)
  | Credit =>
    rw [show debitSignedAsOf s d a
        = -(replayAsOf s d a.accountType a.id) by
        simp [debitSignedAsOf, hn]]
    unfold replayAsOf
    rw [← sum_map_neg_fun]
    congr 1
    exact List.map_congr_left (fun t _ => by
      rw [entryDelta_normal_credit _ _ _ hn, neg_neg])

theorem sum_debitDelta_entries (accs : List Account)
    (hnd : (accs.map (fun a => a.id)).Nodup) :
    ∀ (es : List Entry),
      (∀ e ∈ es, e.accountId ∈ accs.map (fun a => a.id)) →
      (accs.map (fun a => debitDelta a.id es)).sum
        = (es.map (fun e =>
            match e.entryType with
            | .Debit => e.amount
            | .Credit => -e.amount)).sum := by
  intro es
  induction es with
  | nil =>
    intro _
    simp [debitDelta_nil, sum_map_zero_fun]
  | cons e rest ih =>
    intro h
    have hstep : (accs.map (fun a => debitDelta a.id (e :: rest)))
        = accs.map (fun a =>
            (if e.accountId = a.id then
               match e.entryType with
               | .Debit => e.amount
               | .Credit => -e.amount
             else 0) + debitDelta a.id rest) := by
      refine List.map_congr_left ?_
      intro a _
      exact debitDelta_cons a.id e rest
    rw [hstep, sum_map_add_fun, ih (fun x hx => h x (List.mem_cons_of_mem _ hx))]
    have hsingle : (accs.map (fun a =>
        if e.accountId = a.id then
          (match e.entryType with
           | .Debit => e.amount
           | .Credit => -e.amount)
        else 0)).sum
        = (match e.entryType with
           | .Debit => e.amount
           | .Credit => -e.amount) := by
      have hmm : (accs.map (fun a =>
          if e.accountId = a.id then
            (match e.entryType with
             | .Debit => e.amount
             | .Credit => -e.amount)
          else 0))
          = ((accs.map (fun a => a.id)).map (fun i =>
              if e.accountId = i then
                (match e.entryType with
                 | .Debit => e.amount
                 | .Credit => -e.amount)
              else 0)) := by
        rw [List.map_map]
        rfl
      rw [hmm]
      exact sum_if_single _ _ _ hnd (h e (List.mem_cons_self _ _))
    rw [hsingle, List.map_cons, List.sum_cons]

theorem dAmt_eq_totals (t : Transaction) :
    (t.entries.map (fun e =>
      match e.entryType with
      | .Debit => e.amount
      | .Credit => -e.amount)).sum
    = t.total_debits - t.total_credits := by
  unfold Transaction.total_debits Transaction.total_credits
  induction t.entries with
  | nil => simp
  | cons e rest ih =>
    cases he : e.entryType <;>
      simp [List.filter_cons, he, ih] <;> ring

theorem trial_balance_sum_zero (s : MemoryStorage) (d : Int)
    (hwf : WF s)
    (hbal : ∀ p ∈ s.transactions, p.2.total_debits = p.2.total_credits)
    (hpres : ∀ p ∈ s.transactions, ∀ e ∈ p.2.entries,
      (s.get_account e.accountId).isSome = true) :
    ((s.list_accounts none).map (debitSignedAsOf s d)).sum = 0 := by
  have hids : (s.list_accounts none).map (fun a => a.id)
      = keysA s.accounts := by
    rw [list_accounts_none, List.map_map]
    refine List.map_congr_left ?_
    intro p hp
    exact (hwf.1.2 p hp).symm
  have h1 : (s.list_accounts none).map (debitSignedAsOf s d)
      = (s.list_accounts none).map (fun a =>
          (((s.transactions.map (fun p => p.2)).filter
              (fun t => decide (t.date ≤ d))).map
            (fun t => debitDelta a.id t.entries)).sum) := by
    refine List.map_congr_left ?_
    intro a _
    exact debitSignedAsOf_eq s d a
  rw [h1, list_sum_comm]
  refine List.sum_eq_zero ?_
  intro x hx
  obtain ⟨t, ht, rfl⟩ := List.mem_map.mp hx
  have ht' : t ∈ s.transactions.map (fun p => p.2) :=
    List.mem_of_mem_filter ht
  obtain ⟨p, hp, rfl⟩ := List.mem_map.mp ht'
  have hnd : ((s.list_accounts none).map (fun a => a.id)).Nodup := by
    rw [hids]
    exact hwf.1.1
  have hmemall : ∀ e ∈ p.2.entries,
      e.accountId ∈ (s.list_accounts none).map (fun a => a.id) := by
    intro e he
    rw [hids]
    exact mem_keysA_of_getA_isSome (hpres p hp e he)
  rw [sum_debitDelta_entries _ hnd _ hmemall, dAmt_eq_totals, hbal p hp]
  ring

/-! ## Claims -/

/-- C1: for every well-formed storage state whose stored transactions are
all balanced (as `record_transaction` guarantees for posted transactions)
and reference only existing accounts, the trial balance computed for any
date satisfies `total_debits = total_credits`, and its `is_balanced` flag
is exactly the decimal equality test of the two totals. -/
theorem c1_trial_balance_balanced (s : MemoryStorage) (d : Int)
    (hwf : WF s)
    (hbal : ∀ p ∈ s.transactions, p.2.total_debits = p.2.total_credits)
    (hpres : ∀ p ∈ s.transactions, ∀ e ∈ p.2.entries,
      (s.get_account e.accountId).isSome = true) :
    ∃ tb, s.get_trial_balance d = .ok tb ∧
      tb.total_debits = tb.total_credits ∧
      tb.is_balanced = true ∧
      tb.is_balanced = decide (tb.total_debits = tb.total_credits) := by
  obtain ⟨bals', td', tc', hloop, hdiff⟩ :=
    trialLoop_spec s d (s.list_accounts none)
      (list_accounts_lookup s hwf.1) [] 0 0
  have hzero := trial_balance_sum_zero s d hwf hbal hpres
  have heq : td' = tc' := by
    have h0 : td' - tc' = 0 := by
      rw [hdiff, hzero]
      ring
    linarith
  refine ⟨⟨d, bals', td', tc', decide (td' = tc')⟩, ?_, heq,
    by simp [heq], rfl⟩
  simp only [MemoryStorage.get_trial_balance, hloop]

/-- C1 witness: the fixture state after posting one balanced transaction
has a balanced trial balance at date 0. -/
theorem c1_witness :
    ∃ tb, exState1.get_trial_balance 0 = .ok tb ∧
      tb.total_debits = tb.total_credits ∧
      tb.is_balanced = true ∧
      tb.is_balanced = decide (tb.total_debits = tb.total_credits) :=
  c1_trial_balance_balanced exState1 0 (by decide) (by decide) (by decide)

/-- C3: recording a transaction successfully and then immediately deleting
it by id succeeds and restores every account's balance to its exact
pre-record value. -/
theorem c3_record_then_delete_restores (now now' : Int) (t : Transaction)
    (s s1 : MemoryStorage) (k : String) (a : Account)
    (hwf : WF s)
    (hrec : TransactionManager.record_transaction now t s = (.ok (), s1))
    (hacc : s.get_account k = some a) :
    (TransactionManager.delete_transaction now' t.id s1).1 = .ok () ∧
    ((TransactionManager.delete_transaction now' t.id s1).2.get_account
      k).map (fun x => x.balance) = some a.balance := by
  obtain ⟨hv, htx1, hwf1, hnone1, hchar1⟩ :=
    record_ok_spec now t s s1 hwf.1 hrec
  have hstored : s1.get_transaction t.id
      = some { t with updatedAt := now } := by
    show getA s1.transactions t.id = _
    rw [htx1]
    exact getA_upsertA_self _ _ _
  obtain ⟨s2, hdel, htx2, hwf2, hnone2, hchar2⟩ :=
    delete_ok_spec now' t.id { t with updatedAt := now } s1 hwf1 hstored
  rw [hdel]
  refine ⟨rfl, ?_⟩
  obtain ⟨a1, ha1, hid1, hty1, hbal1⟩ := hchar1 k a hacc
  obtain ⟨a2, ha2, hid2, hty2, hbal2⟩ := hchar2 k a1 ha1
  show (getA s2.accounts k).map (fun x => x.balance) = some a.balance
  rw [ha2, Option.map_some']
  have : a2.balance = a.balance := by
    rw [hbal2, hbal1, hty1]
    ring
  rw [this]

/-- C3 witness: record the fixture transaction into the fixture state,
delete it again, and the cash account is back at its original balance. -/
theorem c3_witness :
    (TransactionManager.delete_transaction 1 exTxn.id exState1).1
      = .ok () ∧
    ((TransactionManager.delete_transaction 1 exTxn.id exState1).2.get_account
      "cash").map (fun x => x.balance) = some exCash.balance :=
  c3_record_then_delete_restores 0 1 exTxn exState exState1 "cash" exCash
    (by decide) (by decide) (by decide)

/-- C4: `apply_entry` adds `amount` to the balance when the entry type
equals the account type's normal balance side (Debit for Asset/Expense,
Credit for Liability/Equity/Income) and subtracts it otherwise, leaving
every field other than `balance` and `updated_at` unchanged. -/
theorem c4_apply_entry_correct (a : Account) (et : EntryType)
    (amount : ℤ) (now : Int) :
    ((a.apply_entry et amount now).balance =
      if a.accountType.normal_balance = et then a.balance + amount
      else a.balance - amount) ∧
    (a.apply_entry et amount now).id = a.id ∧
    (a.apply_entry et amount now).name = a.name ∧
    (a.apply_entry et amount now).accountType = a.accountType ∧
    (a.apply_entry et amount now).parentId = a.parentId ∧
    (a.apply_entry et amount now).metadata = a.metadata ∧
    (a.apply_entry et amount now).createdAt = a.createdAt ∧
    AccountType.Asset.normal_balance = .Debit ∧
    AccountType.Expense.normal_balance = .Debit ∧
    AccountType.Liability.normal_balance = .Credit ∧
    AccountType.Equity.normal_balance = .Credit ∧
    AccountType.Income.normal_balance = .Credit := by
  refine ⟨?_, apply_entry_id a et amount now, apply_entry_name a et amount now,
    apply_entry_accountType a et amount now,
    apply_entry_parentId a et amount now,
    apply_entry_metadata a et amount now,
    apply_entry_createdAt a et amount now, rfl, rfl, rfl, rfl, rfl⟩
  rw [apply_entry_balance]
  cases hn : a.accountType.normal_balance <;> cases et <;>
    simp [signed, sub_eq_add_neg]

/-- C5: a transaction that is unbalanced, has fewer than two entries, or
contains a non-positive amount is rejected by `record_transaction` with an
`InvalidTransaction` error (the spec's Validation kind for malformed
transactions) and the storage state is returned unchanged. -/
theorem c5_record_rejects_invalid (now : Int) (t : Transaction)
    (s : MemoryStorage)
    (h : ¬ t.total_debits = t.total_credits ∨ t.entries.length < 2 ∨
         ∃ e ∈ t.entries, e.amount ≤ 0) :
    ∃ msg, TransactionManager.record_transaction now t s
      = (.error (.InvalidTransaction msg), s) := by
  have hval : ∃ msg, t.validate = .error (.InvalidTransaction msg) := by
    unfold Transaction.validate
    by_cases hemp : t.entries.isEmpty
    · exact ⟨_, by rw [if_pos hemp]⟩
    · rw [if_neg hemp]
      by_cases hlen : t.entries.length < 2
      · exact ⟨_, by rw [if_pos hlen]⟩
      · rw [if_neg hlen]
        by_cases hbalb : t.is_balanced = true
        · have hnb : ¬((!t.is_balanced) = true) := by simp [hbalb]
          rw [if_neg hnb]
          have hex : ∃ e ∈ t.entries, e.amount ≤ 0 := by
            rcases h with h | h | h
            · exact absurd (of_decide_eq_true hbalb) h
            · exact absurd h hlen
            · exact h
          obtain ⟨e, he, hle⟩ := hex
          have hfind : (t.entries.find?
              (fun e => decide (e.amount ≤ 0))).isSome = true :=
            List.find?_isSome.mpr ⟨e, he, by simp [hle]⟩
          cases hf : t.entries.find? (fun e => decide (e.amount ≤ 0)) with
          | none => rw [hf] at hfind; exact absurd hfind (by simp)
          | some w => exact ⟨_, rfl⟩
        · have hb : (!t.is_balanced) = true := by
            simp [Bool.not_eq_true] at hbalb
            simp [hbalb]
          rw [if_pos hb]
          exact ⟨_, rfl⟩
  obtain ⟨msg, hv⟩ := hval
  exact ⟨msg, by rw [TransactionManager.record_transaction, hv]⟩

/-- C5 witness: a single-entry transaction is rejected with an
`InvalidTransaction` error and the state is unchanged. -/
theorem c5_witness :
    ∃ msg, TransactionManager.record_transaction 0 exGhostTxn exState
      = (.error (.InvalidTransaction msg), exState) :=
  c5_record_rejects_invalid 0 exGhostTxn exState
    (Or.inr (Or.inl (by decide)))

/-- C6 counterexample: a transaction with a single entry referencing a
nonexistent account fails validation first, so `record_transaction`
returns `InvalidTransaction` — not `AccountNotFound` as the claim states
for every transaction with an unresolved account reference. -/
theorem c6_counterexample :
    exState.get_account "ghost" = none ∧
    "ghost" ∈ exGhostTxn.entries.map (fun e => e.accountId) ∧
    resultIsAccountNotFound
      (TransactionManager.record_transaction 0 exGhostTxn exState)
      = false ∧
    TransactionManager.record_transaction 0 exGhostTxn exState
      = (.error (.InvalidTransaction
          "Transaction must have at least two entries for double-entry bookkeeping"),
        exState) := by
  refine ⟨rfl, by decide, rfl, by decide⟩

/-- C6 amended: for every transaction that passes validation and contains
an entry whose account does not resolve, `record_transaction` fails with
`AccountNotFound` (for the first such entry) and the state is returned
entirely unchanged. -/
theorem c6_record_missing_account_fails (now : Int) (t : Transaction)
    (s : MemoryStorage)
    (hv : t.validate = .ok ())
    (hmiss : ∃ e ∈ t.entries, s.get_account e.accountId = none) :
    ∃ account_id, TransactionManager.record_transaction now t s
      = (.error (.AccountNotFound account_id), s) ∧
      s.get_account account_id = none := by
  have hfind : (t.entries.find?
      (fun e => (s.get_account e.accountId).isNone)).isSome = true := by
    obtain ⟨e, he, hn⟩ := hmiss
    exact List.find?_isSome.mpr ⟨e, he, by simp [hn]⟩
  cases hf : t.entries.find? (fun e => (s.get_account e.accountId).isNone)
    with
  | none => rw [hf] at hfind; exact absurd hfind (by simp)
  | some w =>
    have hw : (s.get_account w.accountId).isNone = true :=
      List.find?_some
        (p := fun (e : Entry) => (s.get_account e.accountId).isNone) hf
    refine ⟨w.accountId, ?_, Option.isNone_iff_eq_none.mp hw⟩
    rw [TransactionManager.record_transaction, hv, hf]

/-- C6 amended witness: a valid transaction referencing only missing
accounts fails with `AccountNotFound` and leaves the fixture state
unchanged. -/
theorem c6_witness :
    ∃ account_id, TransactionManager.record_transaction 0 exGhostTxn2
        exState
      = (.error (.AccountNotFound account_id), exState) ∧
      exState.get_account account_id = none :=
  c6_record_missing_account_fails 0 exGhostTxn2 exState (by decide)
    (by decide)

/-- C7: updating a stored, valid transaction with an identical copy of
itself succeeds and leaves every account's balance unchanged. -/
theorem c7_update_identical_noop (now : Int) (t : Transaction)
    (s : MemoryStorage) (k : String) (a : Account)
    (hwf : WF s)
    (hstored : s.get_transaction t.id = some t)
    (hv : t.validate = .ok ())
    (hacc : s.get_account k = some a) :
    (TransactionManager.update_transaction now t s).1 = .ok () ∧
    ((TransactionManager.update_transaction now t s).2.get_account k).map
      (fun x => x.balance) = some a.balance := by
  obtain ⟨s3, hupd, htx3, hwf3, hnone3, hchar3⟩ :=
    update_ok_spec now t t s hwf.1 hstored hv
  rw [hupd]
  refine ⟨rfl, ?_⟩
  obtain ⟨a', ha', _, _, hbal⟩ := hchar3 k a hacc
  show (getA s3.accounts k).map (fun x => x.balance) = some a.balance
  rw [ha', Option.map_some']
  have : a'.balance = a.balance := by
    rw [hbal]
    ring
  rw [this]

/-- C7 witness: re-submitting the stored fixture transaction as an update
succeeds and leaves the cash balance at 5. -/
theorem c7_witness :
    (TransactionManager.update_transaction 2 exTxn exState1).1 = .ok () ∧
    ((TransactionManager.update_transaction 2 exTxn exState1).2.get_account
      "cash").map (fun x => x.balance) = some exCashAfter.balance :=
  c7_update_identical_noop 2 exTxn exState1 "cash" exCashAfter
    (by decide) (by decide) (by decide) (by decide)

/-- C8: for an existing account, `get_account_balance` with no date
returns the stored live balance, and with a date returns the sum, from
zero, of the signed contributions of every entry referencing the account
over all transactions dated `≤ as_of_date` (later transactions contribute
nothing). -/
theorem c8_get_account_balance_correct (s : MemoryStorage) (id : String)
    (account : Account) (d : Int)
    (h : s.get_account id = some account) :
    s.get_account_balance id none = .ok account.balance ∧
    s.get_account_balance id (some d)
      = .ok (replayAsOf s d account.accountType id) :=
  ⟨get_account_balance_none s id account h,
   get_account_balance_asOf s id account d h⟩

/-- C8 witness: in the fixture state after one posting, the live cash
balance is returned for a `none` date and the date-bounded replay for a
concrete date. -/
theorem c8_witness :
    exState1.get_account_balance "cash" none = .ok exCashAfter.balance ∧
    exState1.get_account_balance "cash" (some 7)
      = .ok (replayAsOf exState1 7 exCashAfter.accountType "cash") :=
  c8_get_account_balance_correct exState1 "cash" exCashAfter 7 (by decide)

/-- C9: `generate_income_statement` computes the same revenue rows,
expense rows and totals for every choice of `start_date`; the two results
differ only in the echoed `start_date` field. -/
theorem c9_income_statement_ignores_start (s : MemoryStorage)
    (d1 d2 endd : Int) :
    Ledger.generate_income_statement s d1 endd
      = Except.map (fun r => { r with start_date := d1 })
          (Ledger.generate_income_statement s d2 endd) := by
  unfold Ledger.generate_income_statement
  cases s.get_account_balances_by_type endd <;> rfl

/-- C10: `update_transaction` does no account-existence precheck and both
`update_transaction` and `delete_transaction` silently skip entries whose
account does not resolve: updating a stored transaction to one referencing
only nonexistent accounts still succeeds and persists the new transaction
(the account map is exactly the one left by reversing the old entries),
and deleting a stored transaction all of whose entries reference missing
accounts succeeds without touching any account. -/
theorem c10_update_delete_skip_missing (now : Int)
    (told tnew t2 : Transaction) (tid : String) (s : MemoryStorage)
    (hwf : WF s)
    (hstored : s.get_transaction tnew.id = some told)
    (hval : tnew.validate = .ok ())
    (hmiss : ∀ e ∈ tnew.entries, s.get_account e.accountId = none)
    (hstored2 : s.get_transaction tid = some t2)
    (hmiss2 : ∀ e ∈ t2.entries, s.get_account e.accountId = none) :
    (TransactionManager.update_transaction now tnew s).1 = .ok () ∧
    (TransactionManager.update_transaction now tnew s).2.get_transaction
      tnew.id = some tnew ∧
    (TransactionManager.update_transaction now tnew s).2.accounts
      = (TransactionManager.reverseEntries now told.entries s).2.accounts ∧
    (TransactionManager.delete_transaction now tid s).1 = .ok () ∧
    (TransactionManager.delete_transaction now tid s).2.accounts
      = s.accounts ∧
    (TransactionManager.delete_transaction now tid s).2.get_transaction
      tid = none := by
  obtain ⟨s1, hrev, htx1, hwf1, hnone1, hchar1⟩ :=
    reverseEntries_spec now told.entries s hwf.1
  have hmiss1 : ∀ e ∈ tnew.entries, s1.get_account e.accountId = none := by
    intro e he
    exact (hnone1 e.accountId).mpr (hmiss e he)
  have happ : TransactionManager.applyEntries now tnew.entries s1
      = (.ok (), s1) :=
    applyEntries_all_missing now tnew.entries s1 hmiss1
  have hsome : (getA s1.transactions tnew.id).isSome = true := by
    rw [htx1, show getA s.transactions tnew.id = some told from hstored]
    rfl
  have hupdt : s1.update_transaction tnew
      = .ok (MemoryStorage.mk s1.accounts
          (upsertA s1.transactions tnew.id tnew)) := by
    simp only [MemoryStorage.update_transaction, hsome, if_true]
  have hupdeq : TransactionManager.update_transaction now tnew s
      = (.ok (), MemoryStorage.mk s1.accounts
          (upsertA s1.transactions tnew.id tnew)) := by
    simp only [TransactionManager.update_transaction, hstored, hval, hrev,
      happ, hupdt]
  have hrev2 : TransactionManager.reverseEntries now t2.entries s
      = (.ok (), s) :=
    reverseEntries_all_missing now t2.entries s hmiss2
  have hsome2 : (getA s.transactions tid).isSome = true := by
    rw [show getA s.transactions tid = some t2 from hstored2]
    rfl
  have hdelt : s.delete_transaction tid
      = .ok (MemoryStorage.mk s.accounts
          (eraseA s.transactions tid)) := by
    simp only [MemoryStorage.delete_transaction, hsome2, if_true]
  have hdeleq : TransactionManager.delete_transaction now tid s
      = (.ok (), MemoryStorage.mk s.accounts
          (eraseA s.transactions tid)) := by
    simp only [TransactionManager.delete_transaction, hstored2, hrev2,
      hdelt]
  rw [hupdeq, hdeleq]
  refine ⟨rfl, ?_, ?_, rfl, rfl, ?_⟩
  · exact getA_upsertA_self _ _ _
  · rw [hrev]
  · exact getA_eraseA_self _ _

/-- C10 witness: the fixture state stores a transaction whose two entries
both reference nonexistent accounts; updating it to itself succeeds and
persists it, and deleting it succeeds leaving the accounts untouched. -/
theorem c10_witness :
    (TransactionManager.update_transaction 0 exGhostTxn2 exStateG).1
      = .ok () ∧
    (TransactionManager.update_transaction 0 exGhostTxn2
      exStateG).2.get_transaction exGhostTxn2.id = some exGhostTxn2 ∧
    (TransactionManager.update_transaction 0 exGhostTxn2
      exStateG).2.accounts
      = (TransactionManager.reverseEntries 0 exGhostTxn2.entries
          exStateG).2.accounts ∧
    (TransactionManager.delete_transaction 0 "tg" exStateG).1 = .ok () ∧
    (TransactionManager.delete_transaction 0 "tg" exStateG).2.accounts
      = exStateG.accounts ∧
    (TransactionManager.delete_transaction 0 "tg"
      exStateG).2.get_transaction "tg" = none :=
  c10_update_delete_skip_missing 0 exGhostTxn2 exGhostTxn2 exGhostTxn2
    "tg" exStateG (by decide) (by decide) (by decide) (by decide)
    (by decide) (by decide)

/-- C2 counterexample: the claim's round-trip consistency between the
replay computation and the live balance fails as stated. Recording the
same transaction id twice is a legal call sequence (`record_transaction`
does not reject id collisions; `HashMap::insert` silently overwrites), and
afterwards the live cash balance is 10 while the ground-truth replay — the
date-bounded replay of `get_account_balance` with a date past every
transaction, which is the code's own replay computation — yields 5. -/
theorem c2_counterexample :
    (runOps [.record 0 exTxn, .record 1 exTxn] exState).get_account_balance
      "cash" none = .ok 10 ∧
    (runOps [.record 0 exTxn, .record 1 exTxn] exState).get_account_balance
      "cash" (some 100) = .ok 5 ∧
    replayTotal (runOps [.record 0 exTxn, .record 1 exTxn] exState)
      AccountType.Asset "cash" = 5 := by
  refine ⟨by decide, by decide, by decide⟩

/-- C2 amended: `get_account_balance` with `as_of_date = None` returns the
live balance directly (it does not replay), and the live balance of every
stored account equals the ground-truth replay over all stored transactions
after any sequence of record/update/delete calls, provided every `record`
call uses a transaction id not already stored (the id-uniqueness the data
model assumes; a colliding record overwrites the stored transaction while
double-applying balances, breaking the equality). -/
theorem c2_replay_live_consistency (s0 : MemoryStorage)
    (ops : List LedgerOp) (k : String) (a : Account)
    (h0 : Inv s0) (hfresh : FreshRun s0 ops)
    (hmem : getA (runOps ops s0).accounts k = some a) :
    (runOps ops s0).get_account_balance k none = .ok a.balance ∧
    a.balance = replayTotal (runOps ops s0) a.accountType a.id := by
  have hInv := runOps_preserves_inv ops s0 h0 hfresh
  exact ⟨get_account_balance_none _ k a hmem,
    hInv.2 _ (mem_of_getA_eq_some hmem)⟩

/-- C2 amended witness: after recording the fixture transaction once with
a fresh id, the `None`-date balance query returns the live cash balance
and it equals the full replay. -/
theorem c2_witness :
    (runOps [.record 0 exTxn] exState).get_account_balance "cash" none
      = .ok exCashAfter.balance ∧
    exCashAfter.balance
      = replayTotal (runOps [.record 0 exTxn] exState)
          exCashAfter.accountType exCashAfter.id :=
  c2_replay_live_consistency exState [.record 0 exTxn] "cash" exCashAfter
    (by decide) (by decide) (by decide)

end AccountingBlue
